import Mathlib

/-!
Shallow embedding of the Identity Map similarity engine
(`src/identity-map/lib/similarity.ts`).

Tag weights and scores are modelled as rationals; strings carry their
JavaScript semantics via explicit character-level operations.  JavaScript
`Map`/`Set` iteration order (insertion order, first occurrence wins) is
modelled by `insertKey` / `dedupKeys`.
-/

namespace IdentityMap

/-- JavaScript whitespace characters relevant to `\s`, `trim` and splitting. -/
def isWS (c : Char) : Bool :=
  c = ' ' || c = '\t' || c = '\n' || c = '\r' || c = '\x0b' || c = '\x0c'

/-- ASCII lowercasing, the effective behaviour of `toLowerCase` on the
characters that survive the `[^a-z0-9\s]` replacement. -/
def jsToLower (c : Char) : Char :=
  if 'A' ≤ c && c ≤ 'Z' then Char.ofNat (c.toNat + 32) else c

/-- Characters kept by the cleaning regex: `[a-z0-9]`. -/
def isLowerAlnum (c : Char) : Bool :=
  ('a' ≤ c && c ≤ 'z') || ('0' ≤ c && c ≤ '9')

/-- One step of `replace(/[^a-z0-9\s]/g, ' ')`. -/
def cleanChar (c : Char) : Char :=
  if isLowerAlnum c || isWS c then c else ' '

/-- `split(/\s+/)` followed by `filter((t) => t.length > 0)`: the maximal
runs of non-whitespace characters, via an accumulator for the current run. -/
def splitTokens : List Char → List Char → List (List Char)
  | [], acc => if acc.isEmpty then [] else [acc.reverse]
  | c :: rest, acc =>
    if isWS c then
      if acc.isEmpty then splitTokens rest [] else acc.reverse :: splitTokens rest []
    else splitTokens rest (c :: acc)

/-- The stopword set `STOP_WORDS` from the source. -/
def STOP_WORDS : List String :=
  ["the", "a", "an", "and", "or", "but", "if", "on", "in", "with", "to",
   "for", "of", "by", "is", "are", "am", "be", "was", "were", "this", "that"]

/-- `simpleStem` from the source: strip a trailing `ing` when the token is
longer than 4 characters, else `ed` when longer than 3, else `s` when
longer than 3; at most one suffix is stripped. -/
def simpleStem (t : List Char) : List Char :=
  if List.isSuffixOf ['i', 'n', 'g'] t && t.length > 4 then t.take (t.length - 3)
  else if List.isSuffixOf ['e', 'd'] t && t.length > 3 then t.take (t.length - 2)
  else if List.isSuffixOf ['s'] t && t.length > 3 then t.take (t.length - 1)
  else t

/-- The character cleaning pass of `tokenize`: lowercase, then replace
characters outside `[a-z0-9\s]` by spaces. -/
def cleanedChars (text : String) : List Char :=
  (text.toList.map jsToLower).map cleanChar

/-- `tokenize` from the source: lowercase, replace characters outside
`[a-z0-9\s]` by spaces, split on whitespace dropping empties, drop
stopwords, stem. -/
def tokenize (text : String) : List String :=
  (((splitTokens (cleanedChars text) []).filter
      (fun t => !STOP_WORDS.contains (String.mk t))).map simpleStem).map String.mk

/-- JavaScript `trim`: drop leading and trailing whitespace. -/
def jsTrim (l : List Char) : List Char :=
  ((l.dropWhile isWS).reverse.dropWhile isWS).reverse

/-- Tag key normalisation: `item.value.trim().toLowerCase()`. -/
def normKey (s : String) : String :=
  String.mk ((jsTrim s.toList).map jsToLower)

/-- A weighted tag, `TagItem` from the source. -/
structure TagItem where
  value : String
  weight : ℚ
deriving DecidableEq

/-- Append a key unless already present: one `Set`/`Map` key insertion,
preserving JavaScript insertion order. -/
def insertKey {α : Type} [DecidableEq α] (l : List α) (k : α) : List α :=
  if k ∈ l then l else l ++ [k]

/-- First-occurrence deduplication, the key order of a JavaScript `Set`
built from a list. -/
def dedupKeys {α : Type} [DecidableEq α] (l : List α) : List α :=
  l.foldl insertKey []

/-- The keys of the collapsed tag map, in insertion order. -/
def keysOf (ts : List TagItem) : List String :=
  ts.foldl (fun acc i => insertKey acc (normKey i.value)) []

/-- The weight stored in the collapsed map for a key, 0 when absent:
`map.get(key) ?? 0` after every `map.set(key, Math.max(map.get(key) ?? 0,
item.weight))`.  Note the running maximum starts at 0, so negative weights
are clamped. -/
def collapsedWeight (ts : List TagItem) (k : String) : ℚ :=
  ts.foldl (fun acc i => if normKey i.value = k then max acc i.weight else acc) 0

/-- `new Set([...mapA.keys(), ...mapB.keys()])`. -/
def unionKeys (a b : List TagItem) : List String :=
  dedupKeys (keysOf a ++ keysOf b)

/-- The `numerator` accumulated by the key loop of `weightedJaccard`. -/
def wjNumerator (a b : List TagItem) : ℚ :=
  ((unionKeys a b).map (fun k => min (collapsedWeight a k) (collapsedWeight b k))).sum

/-- The `denominator` accumulated by the key loop of `weightedJaccard`. -/
def wjDenominator (a b : List TagItem) : ℚ :=
  ((unionKeys a b).map (fun k => max (collapsedWeight a k) (collapsedWeight b k))).sum

/-- `weightedJaccard` from the source. -/
def weightedJaccard (a b : List TagItem) : ℚ :=
  if (unionKeys a b).isEmpty then 0
  else if wjDenominator a b = 0 then 0
  else wjNumerator a b / wjDenominator a b

/-- The `intersection` counter of `textJaccard`. -/
def tjIntersection (aTokens bTokens : List String) : ℕ :=
  ((dedupKeys aTokens).filter (fun t => decide (t ∈ dedupKeys bTokens))).length

/-- The `unionSize` of `textJaccard`. -/
def tjUnionSize (aTokens bTokens : List String) : ℕ :=
  (dedupKeys (dedupKeys aTokens ++ dedupKeys bTokens)).length

/-- `textJaccard` from the source: unweighted Jaccard on the deduplicated
token lists. -/
def textJaccard (aTokens bTokens : List String) : ℚ :=
  if (dedupKeys aTokens).isEmpty && (dedupKeys bTokens).isEmpty then 0
  else if tjUnionSize aTokens bTokens = 0 then 0
  else (tjIntersection aTokens bTokens : ℚ) / (tjUnionSize aTokens bTokens : ℚ)

/-- `computeLensSimilarity` from the source: `0.7 * jw + 0.3 * tj`. -/
def computeLensSimilarity (a : List TagItem) (aTexts : List String)
    (b : List TagItem) (bTexts : List String) : ℚ :=
  7 / 10 * weightedJaccard a b + 3 / 10 * textJaccard aTexts bTexts

/-- The record returned by `explainLens`. -/
structure LensExplanation where
  overlap : List String
  uniqueA : List String
  uniqueB : List String
  topWeights : List String
deriving DecidableEq

/-- The keys pushed onto `overlap` by the loop of `explainLens`:
`wA > 0 && wB > 0`. -/
def overlapKeys (a b : List TagItem) : List String :=
  (unionKeys a b).filter
    (fun k => decide (0 < collapsedWeight a k) && decide (0 < collapsedWeight b k))

/-- The keys pushed onto `uniqueA`: the `else if (wA > 0)` branch. -/
def uniqueAKeys (a b : List TagItem) : List String :=
  (unionKeys a b).filter
    (fun k => decide (0 < collapsedWeight a k) && !decide (0 < collapsedWeight b k))

/-- The keys pushed onto `uniqueB`: the final `else` branch, i.e. every
union key with `wA ≤ 0`. -/
def uniqueBKeys (a b : List TagItem) : List String :=
  (unionKeys a b).filter (fun k => !decide (0 < collapsedWeight a k))

/-- The entries of `weightMap`, in key-discovery order. -/
def weightPairs (a b : List TagItem) : List (String × ℚ) :=
  (unionKeys a b).map (fun k => (k, max (collapsedWeight a k) (collapsedWeight b k)))

/-- `topWeights`: stable sort of the `weightMap` entries by descending
weight, first three keys. -/
def topWeightKeys (a b : List TagItem) : List String :=
  (((weightPairs a b).mergeSort (fun p q => decide (q.2 ≤ p.2))).take 3).map Prod.fst

/-- `explainLens` from the source. -/
def explainLens (a b : List TagItem) : LensExplanation :=
  ⟨overlapKeys a b, uniqueAKeys a b, uniqueBKeys a b, topWeightKeys a b⟩

/-- The three lenses. -/
inductive Lens
  | GIVEN
  | CHOSEN
  | CORE
deriving DecidableEq, Fintype

/-- An identity: tags and free texts per lens.  Total functions model the
`?? []` defaults of the source. -/
structure Identity where
  tags : Lens → List TagItem
  texts : Lens → List String

/-- `LensSimilarityResult` from the source. -/
structure LensSimilarityResult where
  score : ℚ
  overlapTags : List String
  uniqueToA : List String
  uniqueToB : List String
  topWeights : List String
deriving DecidableEq

/-- `SimilarityResult` from the source. -/
structure SimilarityResult where
  scores : Lens → ℚ
  scoreOverall : ℚ
  explanations : Lens → LensSimilarityResult

/-- The fixed lens weights. -/
def lensWeights : Lens → ℚ
  | .GIVEN => 8 / 10
  | .CHOSEN => 1
  | .CORE => 12 / 10

/-- The token stream of one participant for one lens:
`(texts[lens] ?? []).flatMap((t) => tokenize(t))`. -/
def lensTokens (i : Identity) (l : Lens) : List String :=
  (i.texts l).flatMap tokenize

/-- The per-lens score computed inside the `forEach` of `computeSimilarity`. -/
def lensScore (a b : Identity) (l : Lens) : ℚ :=
  computeLensSimilarity (a.tags l) (lensTokens a l) (b.tags l) (lensTokens b l)

/-- The per-lens explanation record assembled inside `computeSimilarity`. -/
def lensExplanation (a b : Identity) (l : Lens) : LensSimilarityResult :=
  let e := explainLens (a.tags l) (b.tags l)
  ⟨lensScore a b l, e.overlap, e.uniqueA, e.uniqueB, e.topWeights⟩

/-- The `weightedSum` accumulated by the `forEach` of `computeSimilarity`,
in lens order. -/
def weightedSum (a b : Identity) : ℚ :=
  lensScore a b .GIVEN * lensWeights .GIVEN +
  lensScore a b .CHOSEN * lensWeights .CHOSEN +
  lensScore a b .CORE * lensWeights .CORE

/-- The `weightTotal` accumulated by the `forEach` of `computeSimilarity`. -/
def weightTotal : ℚ :=
  lensWeights .GIVEN + lensWeights .CHOSEN + lensWeights .CORE

/-- `computeSimilarity` from the source. -/
def computeSimilarity (a b : Identity) : SimilarityResult :=
  { scores := fun l => lensScore a b l
    scoreOverall := if weightTotal = 0 then 0 else weightedSum a b / weightTotal
    explanations := fun l => lensExplanation a b l }

/-! ### Key-list toolkit -/

theorem mem_insertKey {α : Type} [DecidableEq α] (l : List α) (k a : α) :
    a ∈ insertKey l k ↔ a ∈ l ∨ a = k := by
  unfold insertKey
  split
  · constructor
    · exact fun h => Or.inl h
    · rintro (h | rfl) <;> assumption
  · simp [List.mem_append]

theorem nodup_insertKey {α : Type} [DecidableEq α] {l : List α} (h : l.Nodup) (k : α) :
    (insertKey l k).Nodup := by
  unfold insertKey
  split
  · exact h
  · next hk =>
    refine List.Nodup.append h (List.nodup_singleton k) ?_
    intro x hx hx'
    rw [List.mem_singleton] at hx'
    exact hk (hx' ▸ hx)

theorem mem_foldl_insertKey {α : Type} [DecidableEq α] (ks : List α) (acc : List α) (a : α) :
    a ∈ ks.foldl insertKey acc ↔ a ∈ acc ∨ a ∈ ks := by
  induction ks generalizing acc with
  | nil => simp
  | cons k ks ih =>
    rw [List.foldl_cons, ih, mem_insertKey]
    simp only [List.mem_cons]
    tauto

theorem nodup_foldl_insertKey {α : Type} [DecidableEq α] (ks : List α) {acc : List α}
    (h : acc.Nodup) : (ks.foldl insertKey acc).Nodup := by
  induction ks generalizing acc with
  | nil => exact h
  | cons k ks ih => exact ih (nodup_insertKey h k)

theorem mem_dedupKeys {α : Type} [DecidableEq α] (l : List α) (a : α) :
    a ∈ dedupKeys l ↔ a ∈ l := by
  unfold dedupKeys
  rw [mem_foldl_insertKey]
  simp

theorem nodup_dedupKeys {α : Type} [DecidableEq α] (l : List α) : (dedupKeys l).Nodup :=
  nodup_foldl_insertKey l List.nodup_nil

theorem dedupKeys_eq_nil_iff {α : Type} [DecidableEq α] (l : List α) :
    dedupKeys l = [] ↔ l = [] := by
  constructor
  · intro h
    cases l with
    | nil => rfl
    | cons x xs =>
      have hx : x ∈ dedupKeys (x :: xs) := (mem_dedupKeys _ x).mpr (List.mem_cons_self x xs)
      rw [h] at hx
      exact absurd hx (List.not_mem_nil x)
  · rintro rfl
    rfl

theorem foldl_insertKey_of_mem {α : Type} [DecidableEq α] (ks acc : List α)
    (h : ∀ k ∈ ks, k ∈ acc) : ks.foldl insertKey acc = acc := by
  induction ks with
  | nil => rfl
  | cons k ks ih =>
    rw [List.foldl_cons]
    have hk : insertKey acc k = acc := by
      unfold insertKey
      rw [if_pos (h k (List.mem_cons_self k ks))]
    rw [hk]
    exact ih fun x hx => h x (List.mem_cons_of_mem k hx)

theorem dedupKeys_of_nodup {α : Type} [DecidableEq α] {l : List α} (h : l.Nodup) :
    dedupKeys l = l := by
  have general : ∀ (ks acc : List α), ks.Nodup → (∀ k ∈ ks, k ∉ acc) →
      ks.foldl insertKey acc = acc ++ ks := by
    intro ks
    induction ks with
    | nil => intro acc _ _; simp
    | cons k ks ih =>
      intro acc hnd hdisj
      rw [List.foldl_cons]
      have hk : insertKey acc k = acc ++ [k] := by
        unfold insertKey
        rw [if_neg (hdisj k (List.mem_cons_self k ks))]
      have hdisj' : ∀ x ∈ ks, x ∉ acc ++ [k] := by
        intro x hx hx'
        rcases List.mem_append.mp hx' with h1 | h2
        · exact hdisj x (List.mem_cons_of_mem k hx) h1
        · rw [List.mem_singleton] at h2
          exact (List.nodup_cons.mp hnd).1 (h2 ▸ hx)
      rw [hk, ih (acc ++ [k]) (List.Nodup.of_cons hnd) hdisj', List.append_assoc]
      simp
  have := general l [] h (by simp)
  simpa [dedupKeys] using this

/-! ### Tag-map lemmas -/

theorem keysOf_eq_dedup (ts : List TagItem) :
    keysOf ts = dedupKeys (ts.map fun i => normKey i.value) := by
  unfold keysOf dedupKeys
  rw [List.foldl_map]

theorem mem_keysOf (ts : List TagItem) (k : String) :
    k ∈ keysOf ts ↔ ∃ i ∈ ts, normKey i.value = k := by
  rw [keysOf_eq_dedup, mem_dedupKeys, List.mem_map]

theorem nodup_keysOf (ts : List TagItem) : (keysOf ts).Nodup := by
  rw [keysOf_eq_dedup]; exact nodup_dedupKeys _

theorem mem_unionKeys (a b : List TagItem) (k : String) :
    k ∈ unionKeys a b ↔ k ∈ keysOf a ∨ k ∈ keysOf b := by
  unfold unionKeys
  rw [mem_dedupKeys, List.mem_append]

theorem nodup_unionKeys (a b : List TagItem) : (unionKeys a b).Nodup :=
  nodup_dedupKeys _

theorem unionKeys_swap_perm (a b : List TagItem) :
    (unionKeys a b).Perm (unionKeys b a) := by
  rw [List.perm_ext_iff_of_nodup (nodup_unionKeys a b) (nodup_unionKeys b a)]
  intro k
  rw [mem_unionKeys, mem_unionKeys]
  tauto

theorem le_foldl_max_tag (ts : List TagItem) (k : String) (init : ℚ) :
    init ≤ ts.foldl (fun acc i => if normKey i.value = k then max acc i.weight else acc) init := by
  induction ts generalizing init with
  | nil => exact le_refl init
  | cons i ts ih =>
    rw [List.foldl_cons]
    by_cases h : normKey i.value = k
    · rw [if_pos h]
      exact le_trans (le_max_left init i.weight) (ih (max init i.weight))
    · rw [if_neg h]
      exact ih init

theorem collapsedWeight_nonneg (ts : List TagItem) (k : String) :
    0 ≤ collapsedWeight ts k :=
  le_foldl_max_tag ts k 0

theorem foldl_max_tag_mono (ts : List TagItem) (k : String) {init init' : ℚ}
    (hle : init ≤ init') :
    ts.foldl (fun acc x => if normKey x.value = k then max acc x.weight else acc) init ≤
    ts.foldl (fun acc x => if normKey x.value = k then max acc x.weight else acc) init' := by
  induction ts generalizing init init' with
  | nil => exact hle
  | cons x ts ihm =>
    rw [List.foldl_cons, List.foldl_cons]
    by_cases hx : normKey x.value = k
    · rw [if_pos hx, if_pos hx]
      exact ihm (max_le_max hle (le_refl x.weight))
    · rw [if_neg hx, if_neg hx]
      exact ihm hle

theorem weight_le_collapsedWeight {ts : List TagItem} {k : String} {i : TagItem}
    (hmem : i ∈ ts) (hk : normKey i.value = k) : i.weight ≤ collapsedWeight ts k := by
  unfold collapsedWeight
  induction ts with
  | nil => exact absurd hmem (List.not_mem_nil i)
  | cons j ts ih =>
    rw [List.foldl_cons]
    rcases List.mem_cons.mp hmem with rfl | hmem'
    · rw [if_pos hk]
      exact le_trans (le_max_right 0 i.weight) (le_foldl_max_tag ts k _)
    · by_cases hj : normKey j.value = k
      · rw [if_pos hj]
        exact le_trans (ih hmem') (foldl_max_tag_mono ts k (le_max_left 0 j.weight))
      · rw [if_neg hj]
        exact ih hmem'

theorem foldl_max_tag_of_no_match {ts : List TagItem} {k : String}
    (hnone : ∀ i ∈ ts, normKey i.value ≠ k) (init : ℚ) :
    ts.foldl (fun acc x => if normKey x.value = k then max acc x.weight else acc) init = init := by
  induction ts generalizing init with
  | nil => rfl
  | cons i ts ih =>
    rw [List.foldl_cons, if_neg (hnone i (List.mem_cons_self i ts))]
    exact ih (fun x hx => hnone x (List.mem_cons_of_mem i hx)) init

theorem collapsedWeight_eq_zero_of_not_mem {ts : List TagItem} {k : String}
    (h : k ∉ keysOf ts) : collapsedWeight ts k = 0 := by
  have hnone : ∀ i ∈ ts, normKey i.value ≠ k := by
    intro i hi hik
    exact h ((mem_keysOf ts k).mpr ⟨i, hi, hik⟩)
  exact foldl_max_tag_of_no_match hnone 0

theorem collapsedWeight_pos_of_mem {ts : List TagItem} {k : String}
    (hw : ∀ i ∈ ts, 0 < i.weight) (h : k ∈ keysOf ts) : 0 < collapsedWeight ts k := by
  obtain ⟨i, hi, hik⟩ := (mem_keysOf ts k).mp h
  exact lt_of_lt_of_le (hw i hi) (weight_le_collapsedWeight hi hik)

/-! ### Weighted Jaccard: bounds, symmetry, self-comparison -/

theorem wjNumerator_nonneg (a b : List TagItem) : 0 ≤ wjNumerator a b := by
  apply List.sum_nonneg
  intro x hx
  rw [List.mem_map] at hx
  obtain ⟨k, _, rfl⟩ := hx
  exact le_min (collapsedWeight_nonneg a k) (collapsedWeight_nonneg b k)

theorem wjDenominator_nonneg (a b : List TagItem) : 0 ≤ wjDenominator a b := by
  apply List.sum_nonneg
  intro x hx
  rw [List.mem_map] at hx
  obtain ⟨k, _, rfl⟩ := hx
  exact le_trans (collapsedWeight_nonneg a k) (le_max_left _ _)

theorem wjNumerator_le_denominator (a b : List TagItem) :
    wjNumerator a b ≤ wjDenominator a b := by
  apply List.sum_le_sum
  intro k _
  exact le_trans (min_le_left _ _) (le_max_left _ _)

theorem weightedJaccard_nonneg (a b : List TagItem) : 0 ≤ weightedJaccard a b := by
  unfold weightedJaccard
  split
  · exact le_refl 0
  · split
    · exact le_refl 0
    · exact div_nonneg (wjNumerator_nonneg a b) (wjDenominator_nonneg a b)

theorem weightedJaccard_le_one (a b : List TagItem) : weightedJaccard a b ≤ 1 := by
  unfold weightedJaccard
  split
  · exact zero_le_one
  · split
    · exact zero_le_one
    · next hden =>
      have hpos : 0 < wjDenominator a b :=
        lt_of_le_of_ne (wjDenominator_nonneg a b) (Ne.symm hden)
      exact (div_le_one hpos).mpr (wjNumerator_le_denominator a b)

theorem wjNumerator_comm (a b : List TagItem) : wjNumerator a b = wjNumerator b a := by
  unfold wjNumerator
  have hfg : (fun k => min (collapsedWeight a k) (collapsedWeight b k)) =
      (fun k => min (collapsedWeight b k) (collapsedWeight a k)) :=
    funext fun k => min_comm _ _
  rw [hfg]
  exact ((unionKeys_swap_perm a b).map _).sum_eq

theorem wjDenominator_comm (a b : List TagItem) : wjDenominator a b = wjDenominator b a := by
  unfold wjDenominator
  have hfg : (fun k => max (collapsedWeight a k) (collapsedWeight b k)) =
      (fun k => max (collapsedWeight b k) (collapsedWeight a k)) :=
    funext fun k => max_comm _ _
  rw [hfg]
  exact ((unionKeys_swap_perm a b).map _).sum_eq

theorem unionKeys_isEmpty_swap (a b : List TagItem) :
    (unionKeys a b).isEmpty = true ↔ (unionKeys b a).isEmpty = true := by
  rw [List.isEmpty_iff, List.isEmpty_iff]
  constructor
  · intro h
    have hl := (unionKeys_swap_perm a b).length_eq
    rw [h] at hl
    exact List.length_eq_zero.mp hl.symm
  · intro h
    have hl := (unionKeys_swap_perm b a).length_eq
    rw [h] at hl
    exact List.length_eq_zero.mp hl.symm

theorem weightedJaccard_comm (a b : List TagItem) :
    weightedJaccard a b = weightedJaccard b a := by
  unfold weightedJaccard
  by_cases h : (unionKeys a b).isEmpty = true
  · rw [if_pos h, if_pos ((unionKeys_isEmpty_swap a b).mp h)]
  · rw [if_neg h, if_neg (fun hh => h ((unionKeys_isEmpty_swap a b).mpr hh)),
      wjNumerator_comm, wjDenominator_comm]

theorem unionKeys_self (ts : List TagItem) : unionKeys ts ts = keysOf ts := by
  unfold unionKeys dedupKeys
  rw [List.foldl_append,
    show List.foldl insertKey [] (keysOf ts) = keysOf ts from
      dedupKeys_of_nodup (nodup_keysOf ts)]
  exact foldl_insertKey_of_mem _ _ (fun k hk => hk)

theorem weightedJaccard_self {ts : List TagItem} (h : ∃ i ∈ ts, 0 < i.weight) :
    weightedJaccard ts ts = 1 := by
  obtain ⟨i, hi, hw⟩ := h
  have hkey : normKey i.value ∈ keysOf ts := (mem_keysOf ts _).mpr ⟨i, hi, rfl⟩
  have hne : ¬(unionKeys ts ts).isEmpty = true := by
    rw [List.isEmpty_iff, unionKeys_self]
    intro hnil
    rw [hnil] at hkey
    exact absurd hkey (List.not_mem_nil _)
  have heq : wjNumerator ts ts = wjDenominator ts ts := by
    unfold wjNumerator wjDenominator
    rw [show (fun k => min (collapsedWeight ts k) (collapsedWeight ts k)) =
        (fun k => max (collapsedWeight ts k) (collapsedWeight ts k)) from
      funext fun k => by rw [min_self, max_self]]
  have hdenpos : 0 < wjDenominator ts ts := by
    unfold wjDenominator
    have hmem : max (collapsedWeight ts (normKey i.value))
          (collapsedWeight ts (normKey i.value)) ∈
        (unionKeys ts ts).map (fun k => max (collapsedWeight ts k) (collapsedWeight ts k)) :=
      List.mem_map_of_mem _ (by rw [unionKeys_self]; exact hkey)
    have hterm : 0 < max (collapsedWeight ts (normKey i.value))
        (collapsedWeight ts (normKey i.value)) := by
      rw [max_self]
      exact lt_of_lt_of_le hw (weight_le_collapsedWeight hi rfl)
    have hall : ∀ x ∈ (unionKeys ts ts).map
        (fun k => max (collapsedWeight ts k) (collapsedWeight ts k)), 0 ≤ x := by
      intro x hx
      rw [List.mem_map] at hx
      obtain ⟨k, _, rfl⟩ := hx
      exact le_trans (collapsedWeight_nonneg ts k) (le_max_left _ _)
    exact lt_of_lt_of_le hterm (List.single_le_sum hall _ hmem)
  unfold weightedJaccard
  rw [if_neg hne, if_neg (ne_of_gt hdenpos), heq]
  exact div_self (ne_of_gt hdenpos)

/-! ### Text Jaccard: bounds, symmetry, self-comparison -/

theorem length_le_of_nodup_subset {α : Type} [DecidableEq α] {l₁ l₂ : List α}
    (h₁ : l₁.Nodup) (hsub : l₁ ⊆ l₂) : l₁.length ≤ l₂.length :=
  calc l₁.length = l₁.toFinset.card := (List.toFinset_card_of_nodup h₁).symm
    _ ≤ l₂.toFinset.card :=
      Finset.card_le_card fun x hx =>
        List.mem_toFinset.mpr (hsub (List.mem_toFinset.mp hx))
    _ ≤ l₂.length := List.toFinset_card_le l₂

theorem tjIntersection_le_unionSize (aT bT : List String) :
    tjIntersection aT bT ≤ tjUnionSize aT bT := by
  apply length_le_of_nodup_subset (List.Nodup.filter _ (nodup_dedupKeys aT))
  intro t ht
  rw [mem_dedupKeys]
  exact List.mem_append.mpr (Or.inl (List.mem_of_mem_filter ht))

theorem textJaccard_nonneg (aT bT : List String) : 0 ≤ textJaccard aT bT := by
  unfold textJaccard
  split
  · exact le_refl 0
  · split
    · exact le_refl 0
    · exact div_nonneg (Nat.cast_nonneg _) (Nat.cast_nonneg _)

theorem textJaccard_le_one (aT bT : List String) : textJaccard aT bT ≤ 1 := by
  unfold textJaccard
  split
  · exact zero_le_one
  · split
    · exact zero_le_one
    · next hu =>
      have hpos : (0 : ℚ) < tjUnionSize aT bT := by
        exact_mod_cast Nat.pos_of_ne_zero hu
      refine (div_le_one hpos).mpr ?_
      exact_mod_cast tjIntersection_le_unionSize aT bT

theorem tjIntersection_eq_card (aT bT : List String) :
    tjIntersection aT bT = ((dedupKeys aT).toFinset ∩ (dedupKeys bT).toFinset).card := by
  unfold tjIntersection
  rw [← List.toFinset_card_of_nodup (List.Nodup.filter _ (nodup_dedupKeys aT))]
  congr 1
  rw [List.toFinset_filter]
  ext x
  simp [List.mem_toFinset]

theorem tjIntersection_comm (aT bT : List String) :
    tjIntersection aT bT = tjIntersection bT aT := by
  rw [tjIntersection_eq_card, tjIntersection_eq_card, Finset.inter_comm]

theorem tjUnionSize_comm (aT bT : List String) :
    tjUnionSize aT bT = tjUnionSize bT aT := by
  unfold tjUnionSize
  apply List.Perm.length_eq
  rw [List.perm_ext_iff_of_nodup (nodup_dedupKeys _) (nodup_dedupKeys _)]
  intro x
  rw [mem_dedupKeys, mem_dedupKeys, List.mem_append, List.mem_append]
  tauto

theorem textJaccard_comm (aT bT : List String) : textJaccard aT bT = textJaccard bT aT := by
  unfold textJaccard
  rw [Bool.and_comm, tjIntersection_comm, tjUnionSize_comm]

theorem dedupKeys_append_self_of_nodup {α : Type} [DecidableEq α] {s : List α}
    (h : s.Nodup) : dedupKeys (s ++ s) = s := by
  show List.foldl insertKey [] (s ++ s) = s
  rw [List.foldl_append,
    show List.foldl insertKey [] s = s from dedupKeys_of_nodup h]
  exact foldl_insertKey_of_mem _ _ (fun k hk => hk)

theorem textJaccard_self {t : List String} (h : t ≠ []) : textJaccard t t = 1 := by
  have hs : dedupKeys t ≠ [] := fun hh => h ((dedupKeys_eq_nil_iff t).mp hh)
  have hfilter : (dedupKeys t).filter (fun x => decide (x ∈ dedupKeys t)) = dedupKeys t :=
    List.filter_eq_self.mpr fun x hx => by simpa using hx
  have hinter : tjIntersection t t = (dedupKeys t).length := by
    unfold tjIntersection
    rw [hfilter]
  have hunion : tjUnionSize t t = (dedupKeys t).length := by
    unfold tjUnionSize
    rw [dedupKeys_append_self_of_nodup (nodup_dedupKeys t)]
  have hlen : (dedupKeys t).length ≠ 0 := fun hh => hs (List.length_eq_zero.mp hh)
  unfold textJaccard
  rw [if_neg (by simp [List.isEmpty_iff, hs]), if_neg (by rw [hunion]; exact hlen),
    hinter, hunion]
  exact div_self (by exact_mod_cast hlen)

/-! ### Lens scores and the result record -/

theorem scores_eq (a b : Identity) (l : Lens) :
    (computeSimilarity a b).scores l = lensScore a b l := rfl

theorem scoreOverall_eq (a b : Identity) :
    (computeSimilarity a b).scoreOverall =
      if weightTotal = 0 then 0 else weightedSum a b / weightTotal := rfl

theorem explanations_eq (a b : Identity) (l : Lens) :
    (computeSimilarity a b).explanations l = lensExplanation a b l := rfl

theorem weightTotal_eq_three : weightTotal = 3 := by
  norm_num [weightTotal, lensWeights]

theorem lensScore_nonneg (a b : Identity) (l : Lens) : 0 ≤ lensScore a b l := by
  unfold lensScore computeLensSimilarity
  have h1 := weightedJaccard_nonneg (a.tags l) (b.tags l)
  have h2 := textJaccard_nonneg (lensTokens a l) (lensTokens b l)
  linarith

theorem lensScore_le_one (a b : Identity) (l : Lens) : lensScore a b l ≤ 1 := by
  unfold lensScore computeLensSimilarity
  have h1 := weightedJaccard_le_one (a.tags l) (b.tags l)
  have h2 := textJaccard_le_one (lensTokens a l) (lensTokens b l)
  linarith

theorem lensScore_comm (a b : Identity) (l : Lens) : lensScore a b l = lensScore b a l := by
  unfold lensScore computeLensSimilarity
  rw [weightedJaccard_comm, textJaccard_comm]

/-- C1: for every pair of identities A and B, `computeSimilarity(A,B).scoreOverall`
equals `computeSimilarity(B,A).scoreOverall`, and for each lens L the per-lens
scores agree: `computeSimilarity(A,B).scores[L] = computeSimilarity(B,A).scores[L]`. -/
theorem claim_similarity_symmetric (a b : Identity) :
    (computeSimilarity a b).scoreOverall = (computeSimilarity b a).scoreOverall ∧
    ∀ l : Lens, (computeSimilarity a b).scores l = (computeSimilarity b a).scores l := by
  constructor
  · rw [scoreOverall_eq, scoreOverall_eq]
    unfold weightedSum
    rw [lensScore_comm a b Lens.GIVEN, lensScore_comm a b Lens.CHOSEN,
      lensScore_comm a b Lens.CORE]
  · intro l
    rw [scores_eq, scores_eq]
    exact lensScore_comm a b l

/-- C2: when every tag weight of both identities lies in `[1, 3]`, every
per-lens score and the overall score lie in the closed interval `[0, 1]`.
(The bounds in fact hold for arbitrary weights, since the collapse loop of
`weightedJaccard` clamps stored weights below at 0.) -/
theorem claim_scores_bounded (a b : Identity)
    (ha : ∀ l : Lens, ∀ i ∈ a.tags l, 1 ≤ i.weight ∧ i.weight ≤ 3)
    (hb : ∀ l : Lens, ∀ i ∈ b.tags l, 1 ≤ i.weight ∧ i.weight ≤ 3) :
    (∀ l : Lens, 0 ≤ (computeSimilarity a b).scores l ∧
      (computeSimilarity a b).scores l ≤ 1) ∧
    0 ≤ (computeSimilarity a b).scoreOverall ∧
    (computeSimilarity a b).scoreOverall ≤ 1 := by
  have hG1 := lensScore_nonneg a b Lens.GIVEN
  have hC1 := lensScore_nonneg a b Lens.CHOSEN
  have hK1 := lensScore_nonneg a b Lens.CORE
  have hG2 := lensScore_le_one a b Lens.GIVEN
  have hC2 := lensScore_le_one a b Lens.CHOSEN
  have hK2 := lensScore_le_one a b Lens.CORE
  refine ⟨fun l => ⟨?_, ?_⟩, ?_, ?_⟩
  · rw [scores_eq]; exact lensScore_nonneg a b l
  · rw [scores_eq]; exact lensScore_le_one a b l
  · rw [scoreOverall_eq, weightTotal_eq_three, if_neg (by norm_num : ¬(3 : ℚ) = 0)]
    apply div_nonneg _ (by norm_num : (0 : ℚ) ≤ 3)
    unfold weightedSum
    simp only [lensWeights]
    linarith
  · rw [scoreOverall_eq, weightTotal_eq_three, if_neg (by norm_num : ¬(3 : ℚ) = 0)]
    rw [div_le_one (by norm_num : (0 : ℚ) < 3)]
    unfold weightedSum
    simp only [lensWeights]
    linarith

/-- C5: `scoreOverall` is the lens-weighted aggregate with fixed weights
GIVEN = 0.8, CHOSEN = 1.0, CORE = 1.2 over a denominator of 3.0; in
particular uniform lens scores of 0.5 produce an overall of 0.5. -/
theorem claim_overall_weighting (a b : Identity) :
    (computeSimilarity a b).scoreOverall =
      (8 / 10 * (computeSimilarity a b).scores Lens.GIVEN +
       1 * (computeSimilarity a b).scores Lens.CHOSEN +
       12 / 10 * (computeSimilarity a b).scores Lens.CORE) / 3 ∧
    ((∀ l : Lens, (computeSimilarity a b).scores l = 1 / 2) →
      (computeSimilarity a b).scoreOverall = 1 / 2) := by
  have hform : (computeSimilarity a b).scoreOverall =
      (8 / 10 * (computeSimilarity a b).scores Lens.GIVEN +
       1 * (computeSimilarity a b).scores Lens.CHOSEN +
       12 / 10 * (computeSimilarity a b).scores Lens.CORE) / 3 := by
    rw [scoreOverall_eq, weightTotal_eq_three, if_neg (by norm_num : ¬(3 : ℚ) = 0),
      scores_eq, scores_eq, scores_eq]
    unfold weightedSum
    simp only [lensWeights]
    ring
  refine ⟨hform, fun hu => ?_⟩
  rw [hform, hu Lens.GIVEN, hu Lens.CHOSEN, hu Lens.CORE]
  norm_num

/-- C6: every per-lens score is the 0.7/0.3 blend of the weighted Jaccard of
the lens tags and the text Jaccard of the flattened token streams, where each
text entry is tokenized independently and the token lists are concatenated in
order. -/
theorem claim_lens_blend (a b : Identity) (l : Lens) :
    (computeSimilarity a b).scores l =
      7 / 10 * weightedJaccard (a.tags l) (b.tags l) +
      3 / 10 * textJaccard ((a.texts l).flatMap tokenize) ((b.texts l).flatMap tokenize) :=
  rfl

/-- C8: a lens that is empty on both sides scores exactly 0:
`weightedJaccard` returns 0 whenever the key union is empty, and
`textJaccard` returns 0 whenever both deduplicated token sets are empty, so
no division is ever reached in the empty-vs-empty case. -/
theorem claim_empty_lens_zero (a b : Identity) (l : Lens)
    (h1 : a.tags l = []) (h2 : a.texts l = []) (h3 : b.tags l = []) (h4 : b.texts l = []) :
    (computeSimilarity a b).scores l = 0 ∧
    (∀ x y : List TagItem, unionKeys x y = [] → weightedJaccard x y = 0) ∧
    (∀ xs ys : List String, dedupKeys xs = [] → dedupKeys ys = [] →
      textJaccard xs ys = 0) := by
  refine ⟨?_, ?_, ?_⟩
  · rw [scores_eq]
    unfold lensScore computeLensSimilarity lensTokens
    rw [h1, h2, h3, h4]
    rw [show weightedJaccard ([] : List TagItem) [] = 0 from rfl,
      show textJaccard (List.flatMap ([] : List String) tokenize)
        (List.flatMap ([] : List String) tokenize) = 0 from rfl]
    norm_num
  · intro x y h
    unfold weightedJaccard
    rw [if_pos (by rw [List.isEmpty_iff]; exact h)]
  · intro xs ys hx hy
    unfold textJaccard
    rw [if_pos (by simp [List.isEmpty_iff, hx, hy])]

/-- C10: the score embedded in each lens explanation equals the
corresponding entry of the `scores` record. -/
theorem claim_explanation_score_consistent (a b : Identity) (l : Lens) :
    ((computeSimilarity a b).explanations l).score = (computeSimilarity a b).scores l :=
  rfl

/-! ### Witness data -/

/-- Witness identity: tags with weights in `[1,3]` and a text, per lens. -/
def wIdA : Identity :=
  ⟨fun _ => [⟨"Music", 2⟩], fun _ => ["Loves hiking"]⟩

/-- Second witness identity. -/
def wIdB : Identity :=
  ⟨fun _ => [⟨"music", 3⟩, ⟨"travel", 2⟩], fun _ => ["Hiking is my favorite activity"]⟩

theorem claim_scores_bounded_witness :
    (0 ≤ (computeSimilarity wIdA wIdB).scores Lens.CORE ∧
      (computeSimilarity wIdA wIdB).scores Lens.CORE ≤ 1) ∧
    0 ≤ (computeSimilarity wIdA wIdB).scoreOverall ∧
    (computeSimilarity wIdA wIdB).scoreOverall ≤ 1 := by
  obtain ⟨hs, ho1, ho2⟩ := claim_scores_bounded wIdA wIdB (by decide) (by decide)
  exact ⟨hs Lens.CORE, ho1, ho2⟩

/-- Witness identity for the uniform-0.5 aggregate: lens score
`0.7 * (5/7) = 1/2` in every lens. -/
def wHalfA : Identity :=
  ⟨fun _ => [⟨"x", 5⟩], fun _ => []⟩

/-- Counterpart of `wHalfA` with weight 7 on the shared tag. -/
def wHalfB : Identity :=
  ⟨fun _ => [⟨"x", 7⟩], fun _ => []⟩

theorem claim_overall_weighting_witness :
    (computeSimilarity wHalfA wHalfB).scoreOverall = 1 / 2 := by
  have hwj : weightedJaccard [⟨"x", 5⟩] [⟨"x", 7⟩] = 5 / 7 := by
    have hku : unionKeys [⟨"x", (5 : ℚ)⟩] [⟨"x", 7⟩] = ["x"] := by decide
    unfold weightedJaccard wjNumerator wjDenominator
    rw [hku]
    norm_num [show collapsedWeight [⟨"x", (5 : ℚ)⟩] "x" = 5 from by decide,
      show collapsedWeight [⟨"x", (7 : ℚ)⟩] "x" = 7 from by decide]
  have hhalf : ∀ l : Lens, (computeSimilarity wHalfA wHalfB).scores l = 1 / 2 := by
    intro l
    rw [scores_eq]
    show 7 / 10 * weightedJaccard [⟨"x", 5⟩] [⟨"x", 7⟩] +
      3 / 10 * textJaccard (lensTokens wHalfA l) (lensTokens wHalfB l) = 1 / 2
    rw [show textJaccard (lensTokens wHalfA l) (lensTokens wHalfB l) = 0 from rfl, hwj]
    norm_num
  exact (claim_overall_weighting wHalfA wHalfB).2 hhalf

/-- Witness identity with no data at all. -/
def wEmpty : Identity :=
  ⟨fun _ => [], fun _ => []⟩

theorem claim_empty_lens_zero_witness :
    (computeSimilarity wEmpty wEmpty).scores Lens.GIVEN = 0 ∧
    weightedJaccard [] [] = 0 ∧ textJaccard [] [] = 0 := by
  obtain ⟨h1, h2, h3⟩ := claim_empty_lens_zero wEmpty wEmpty Lens.GIVEN rfl rfl rfl rfl
  exact ⟨h1, h2 [] [] rfl, h3 [] [] rfl rfl⟩

/-! ### Self-comparison (claim C3) -/

/-- Identity with a positively weighted GIVEN tag and no text anywhere. -/
def cexSelf : Identity :=
  ⟨fun l => match l with | .GIVEN => [⟨"music", 2⟩] | _ => [], fun _ => []⟩

/-- C3 counterexample: an identity whose GIVEN lens holds one tag (weight 2)
and no text scores 0.7 — not 1.0 — against itself in that lens, although "at
least one tag or one text exists" there.  The text-Jaccard term of the 0.7/0.3
blend is 0 for empty token streams, so tag-only lenses cannot reach 1. -/
theorem claim_self_similarity_counterexample :
    cexSelf.tags Lens.GIVEN ≠ [] ∧
    (computeSimilarity cexSelf cexSelf).scores Lens.GIVEN = 7 / 10 ∧
    (7 : ℚ) / 10 ≠ 1 := by
  refine ⟨by decide, ?_, by norm_num⟩
  rw [scores_eq]
  show 7 / 10 * weightedJaccard [⟨"music", 2⟩] [⟨"music", 2⟩] +
    3 / 10 * textJaccard (lensTokens cexSelf Lens.GIVEN)
      (lensTokens cexSelf Lens.GIVEN) = 7 / 10
  rw [show textJaccard (lensTokens cexSelf Lens.GIVEN)
      (lensTokens cexSelf Lens.GIVEN) = 0 from rfl,
    weightedJaccard_self ⟨⟨"music", 2⟩, List.mem_singleton_self _, by norm_num⟩]
  norm_num

/-- C3 (amended): comparing an identity with itself yields lens score exactly
1.0 in every lens where at least one positively weighted tag exists and the
lens texts yield at least one token. -/
theorem claim_self_similarity (a : Identity) (l : Lens)
    (htag : ∃ i ∈ a.tags l, 0 < i.weight) (htok : lensTokens a l ≠ []) :
    (computeSimilarity a a).scores l = 1 := by
  rw [scores_eq]
  unfold lensScore computeLensSimilarity
  rw [weightedJaccard_self htag, textJaccard_self htok]
  norm_num

/-- Identity with a tag and a text in every lens. -/
def wSelf : Identity :=
  ⟨fun _ => [⟨"music", 2⟩], fun _ => ["hiking"]⟩

theorem claim_self_similarity_witness :
    (computeSimilarity wSelf wSelf).scores Lens.CORE = 1 :=
  claim_self_similarity wSelf Lens.CORE
    ⟨⟨"music", 2⟩, by decide, by norm_num⟩ (by decide)

/-! ### The spec-side weighted Jaccard (claim C4) -/

/-- Modelled from the spec words of claim C4: the map value for a key is
"the maximum weight among duplicate values", with an absent key counted as
weight 0 — no clamping of negative weights. -/
def specTagWeight (ts : List TagItem) (k : String) : ℚ :=
  match (ts.filter (fun i => decide (normKey i.value = k))).map TagItem.weight with
  | [] => 0
  | w :: ws => ws.foldl max w

/-- Modelled from the spec words of claim C4: 0 when the union of keys of
both maps is empty, otherwise the sum over the union of per-key minima
divided by the sum of per-key maxima. -/
def weightedJaccardSpec (a b : List TagItem) : ℚ :=
  if (unionKeys a b).isEmpty then 0
  else ((unionKeys a b).map (fun k => min (specTagWeight a k) (specTagWeight b k))).sum /
    ((unionKeys a b).map (fun k => max (specTagWeight a k) (specTagWeight b k))).sum

theorem foldl_max_tag_eq_filter (ts : List TagItem) (k : String) (init : ℚ) :
    ts.foldl (fun acc i => if normKey i.value = k then max acc i.weight else acc) init =
      ((ts.filter (fun i => decide (normKey i.value = k))).map TagItem.weight).foldl
        max init := by
  induction ts generalizing init with
  | nil => rfl
  | cons i ts ih =>
    rw [List.foldl_cons, List.filter_cons]
    by_cases h : normKey i.value = k
    · rw [if_pos h, if_pos (by simpa using h), List.map_cons, List.foldl_cons]
      exact ih (max init i.weight)
    · rw [if_neg h, if_neg (by simpa using h)]
      exact ih init

theorem collapsedWeight_eq_specTagWeight {ts : List TagItem}
    (hw : ∀ i ∈ ts, 0 ≤ i.weight) (k : String) :
    collapsedWeight ts k = specTagWeight ts k := by
  unfold collapsedWeight specTagWeight
  rw [foldl_max_tag_eq_filter]
  cases hfm : (ts.filter (fun i => decide (normKey i.value = k))).map TagItem.weight with
  | nil => rfl
  | cons w ws =>
    rw [List.foldl_cons]
    have hwpos : 0 ≤ w := by
      have hmem : w ∈ (ts.filter (fun i => decide (normKey i.value = k))).map TagItem.weight := by
        rw [hfm]
        exact List.mem_cons_self w ws
      rw [List.mem_map] at hmem
      obtain ⟨i, hi, rfl⟩ := hmem
      exact hw i (List.mem_of_mem_filter hi)
    rw [max_eq_right hwpos]

/-- C4 (amended): for tag lists whose weights are all nonnegative — the
engine's documented weight contract is `[1,3]` — `weightedJaccard` equals the
spec description: collapse to trimmed-lowercased key → max duplicate weight,
0 on an empty key union, otherwise sum of per-key minima over sum of per-key
maxima with absence as weight 0.  (With a negative weight the two differ,
because the collapse loop clamps stored weights below at 0.) -/
theorem claim_weightedJaccard_spec (a b : List TagItem)
    (ha : ∀ i ∈ a, 0 ≤ i.weight) (hb : ∀ i ∈ b, 0 ≤ i.weight) :
    weightedJaccard a b = weightedJaccardSpec a b := by
  unfold weightedJaccard weightedJaccardSpec wjNumerator wjDenominator
  by_cases h : (unionKeys a b).isEmpty = true
  · rw [if_pos h, if_pos h]
  · rw [if_neg h, if_neg h]
    simp only [collapsedWeight_eq_specTagWeight ha, collapsedWeight_eq_specTagWeight hb]
    split
    · next hden => rw [hden, div_zero]
    · rfl

/-- The worked 1/7 example of the spec, used as the witness input. -/
def exC4A : List TagItem := [⟨"music", 3⟩, ⟨"sports", 2⟩]

/-- Counterpart of `exC4A` in the worked example. -/
def exC4B : List TagItem := [⟨"music", 1⟩, ⟨"travel", 2⟩]

theorem claim_weightedJaccard_spec_witness :
    weightedJaccard exC4A exC4B = weightedJaccardSpec exC4A exC4B ∧
    weightedJaccard exC4A exC4B = 1 / 7 := by
  refine ⟨claim_weightedJaccard_spec exC4A exC4B (by decide) (by decide), ?_⟩
  have hku : unionKeys exC4A exC4B = ["music", "sports", "travel"] := by decide
  unfold weightedJaccard wjNumerator wjDenominator
  rw [hku]
  norm_num [show collapsedWeight exC4A "music" = 3 from by decide,
    show collapsedWeight exC4A "sports" = 2 from by decide,
    show collapsedWeight exC4A "travel" = 0 from by decide,
    show collapsedWeight exC4B "music" = 1 from by decide,
    show collapsedWeight exC4B "sports" = 0 from by decide,
    show collapsedWeight exC4B "travel" = 2 from by decide]

/-- C4 counterexample: with a negative weight the engine stores
`max(0, -1) = 0` for key `x`, while the claim's "maximum weight among
duplicate values" is `-1`; the code returns 1 but the claim's formula gives
1/2 on this input, so the claim is false without a weight restriction. -/
theorem claim_weightedJaccard_spec_counterexample :
    weightedJaccard [⟨"x", -1⟩, ⟨"y", 2⟩] [⟨"y", 2⟩] = 1 ∧
    weightedJaccardSpec [⟨"x", -1⟩, ⟨"y", 2⟩] [⟨"y", 2⟩] = 1 / 2 := by
  have hku : unionKeys [⟨"x", (-1 : ℚ)⟩, ⟨"y", 2⟩] [⟨"y", 2⟩] = ["x", "y"] := by decide
  constructor
  · unfold weightedJaccard wjNumerator wjDenominator
    rw [hku]
    norm_num [show collapsedWeight [⟨"x", (-1 : ℚ)⟩, ⟨"y", 2⟩] "x" = 0 from by decide,
      show collapsedWeight [⟨"x", (-1 : ℚ)⟩, ⟨"y", 2⟩] "y" = 2 from by decide,
      show collapsedWeight [⟨"y", (2 : ℚ)⟩] "x" = 0 from by decide,
      show collapsedWeight [⟨"y", (2 : ℚ)⟩] "y" = 2 from by decide]
  · unfold weightedJaccardSpec
    rw [hku]
    norm_num [show specTagWeight [⟨"x", (-1 : ℚ)⟩, ⟨"y", 2⟩] "x" = -1 from by decide,
      show specTagWeight [⟨"x", (-1 : ℚ)⟩, ⟨"y", 2⟩] "y" = 2 from by decide,
      show specTagWeight [⟨"y", (2 : ℚ)⟩] "x" = 0 from by decide,
      show specTagWeight [⟨"y", (2 : ℚ)⟩] "y" = 2 from by decide]

/-! ### Explanation structure (claim C9) -/

theorem mem_keysOf_iff_pos {ts : List TagItem} (hw : ∀ i ∈ ts, 0 < i.weight)
    (k : String) : k ∈ keysOf ts ↔ 0 < collapsedWeight ts k := by
  constructor
  · exact collapsedWeight_pos_of_mem hw
  · intro h
    by_contra hk
    rw [collapsedWeight_eq_zero_of_not_mem hk] at h
    exact lt_irrefl 0 h

theorem weightPairs_snd {a b : List TagItem} {p : String × ℚ}
    (hp : p ∈ weightPairs a b) :
    p.2 = max (collapsedWeight a p.1) (collapsedWeight b p.1) := by
  unfold weightPairs at hp
  rw [List.mem_map] at hp
  obtain ⟨k, _, rfl⟩ := hp
  rfl

theorem mem_take_weightPairs {a b : List TagItem} {p : String × ℚ}
    (hp : p ∈ (((weightPairs a b).mergeSort (fun p q => decide (q.2 ≤ p.2)))).take 3) :
    p ∈ weightPairs a b :=
  (List.mergeSort_perm (weightPairs a b) _).mem_iff.mp (List.take_subset 3 _ hp)

theorem nodup_weightPairs (a b : List TagItem) : (weightPairs a b).Nodup := by
  unfold weightPairs
  apply List.Nodup.map_on ?_ (nodup_unionKeys a b)
  intro x _ y _ hxy
  exact congrArg Prod.fst hxy

theorem topWeightKeys_length_le (a b : List TagItem) :
    (topWeightKeys a b).length ≤ 3 := by
  unfold topWeightKeys
  rw [List.length_map, List.length_take]
  exact min_le_left _ _

theorem topWeightKeys_subset {a b : List TagItem} {k : String}
    (hk : k ∈ topWeightKeys a b) : k ∈ unionKeys a b := by
  unfold topWeightKeys at hk
  rw [List.mem_map] at hk
  obtain ⟨p, hp, rfl⟩ := hk
  have hmem := mem_take_weightPairs hp
  unfold weightPairs at hmem
  rw [List.mem_map] at hmem
  obtain ⟨k', hk', heq⟩ := hmem
  rw [← heq]
  exact hk'

theorem topWeightKeys_sorted (a b : List TagItem) :
    (topWeightKeys a b).Pairwise (fun k₁ k₂ =>
      max (collapsedWeight a k₂) (collapsedWeight b k₂) ≤
      max (collapsedWeight a k₁) (collapsedWeight b k₁)) := by
  unfold topWeightKeys
  rw [List.pairwise_map]
  have htrans : ∀ p q r : String × ℚ, (fun p q => decide (q.2 ≤ p.2)) p q = true →
      (fun p q => decide (q.2 ≤ p.2)) q r = true →
      (fun p q => decide (q.2 ≤ p.2)) p r = true := by
    intro p q r h1 h2
    simp only [decide_eq_true_eq] at h1 h2 ⊢
    exact le_trans h2 h1
  have htotal : ∀ p q : String × ℚ,
      ((fun p q => decide (q.2 ≤ p.2)) p q || (fun p q => decide (q.2 ≤ p.2)) q p) = true := by
    intro p q
    simp only [Bool.or_eq_true, decide_eq_true_eq]
    exact le_total q.2 p.2
  have hsorted := List.sorted_mergeSort htrans htotal (weightPairs a b)
  have hsorted' : (((weightPairs a b).mergeSort (fun p q => decide (q.2 ≤ p.2)))).Pairwise
      (fun p q : String × ℚ => q.2 ≤ p.2) :=
    hsorted.imp (by intro p q h; simpa using h)
  have htake := List.Pairwise.sublist (List.take_sublist 3 _) hsorted'
  apply List.Pairwise.imp_of_mem ?_ htake
  intro p q hp hq h
  rw [weightPairs_snd (mem_take_weightPairs hp),
    weightPairs_snd (mem_take_weightPairs hq)] at h
  exact h

theorem topWeightKeys_nodup (a b : List TagItem) : (topWeightKeys a b).Nodup := by
  unfold topWeightKeys
  have hnd : (((weightPairs a b).mergeSort (fun p q => decide (q.2 ≤ p.2)))).Nodup :=
    (List.mergeSort_perm (weightPairs a b) _).symm.nodup (nodup_weightPairs a b)
  apply List.Nodup.map_on ?_ (List.Nodup.sublist (List.take_sublist 3 _) hnd)
  intro x hx y hy hxy
  have hx' := weightPairs_snd (mem_take_weightPairs hx)
  have hy' := weightPairs_snd (mem_take_weightPairs hy)
  have hsnd : x.2 = y.2 := by rw [hx', hy', hxy]
  exact Prod.ext hxy hsnd

theorem charOfNatToNat (n : Nat) (h : n < 55296) : (Char.ofNat n).toNat = n := by
  unfold Char.ofNat
  rw [dif_pos (Or.inl h)]
  simp only [Char.ofNatAux, Char.toNat]
  exact BitVec.toNat_ofNatLt n _

theorem jsToLower_not_upper (c : Char) :
    ¬('A' ≤ jsToLower c ∧ jsToLower c ≤ 'Z') := by
  unfold jsToLower
  split
  · next h =>
    rw [Bool.and_eq_true, decide_eq_true_eq, decide_eq_true_eq] at h
    obtain ⟨h1, h2⟩ := h
    rintro ⟨ha, hz⟩
    have hcz : c.toNat ≤ Char.toNat 'Z' := h2
    have hca : Char.toNat 'A' ≤ c.toNat := h1
    have hZ90 : Char.toNat 'Z' = 90 := by decide
    have hA65 : Char.toNat 'A' = 65 := by decide
    have hv : (Char.ofNat (c.toNat + 32)).toNat = c.toNat + 32 :=
      charOfNatToNat _ (by omega)
    have hz' : (Char.ofNat (c.toNat + 32)).toNat ≤ Char.toNat 'Z' := hz
    rw [hv] at hz'
    omega
  · next h =>
    rintro ⟨ha, hz⟩
    exact h (by simp [ha, hz])

theorem normKey_chars_not_upper (s : String) :
    ∀ c ∈ (normKey s).data, ¬('A' ≤ c ∧ c ≤ 'Z') := by
  intro c hc
  have hmem : c ∈ (jsTrim s.toList).map jsToLower := hc
  rw [List.mem_map] at hmem
  obtain ⟨c', _, rfl⟩ := hmem
  exact jsToLower_not_upper c'

theorem unionKeys_chars_not_upper {a b : List TagItem} {k : String}
    (hk : k ∈ unionKeys a b) : ∀ c ∈ k.data, ¬('A' ≤ c ∧ c ≤ 'Z') := by
  rw [mem_unionKeys] at hk
  rcases hk with h | h
  all_goals
    rw [mem_keysOf] at h
    obtain ⟨i, _, hkey⟩ := h
    subst hkey
    exact normKey_chars_not_upper _

/-- C9 (amended): for tag collections whose weights are all positive — the
engine's documented contract is `[1,3]` — the lens explanation satisfies:
`overlap` is exactly the keys present on both sides, `uniqueA`/`uniqueB`
exactly the keys present only on that side, `topWeights` holds at most three
union keys in descending order of `max(weightA, weightB)`, and every
returned key is lowercase and listed at most once.  (With a weight ≤ 0 the
classification breaks: such keys land in `uniqueB` regardless of side.) -/
theorem claim_explainLens_structure (a b : List TagItem)
    (ha : ∀ i ∈ a, 0 < i.weight) (hb : ∀ i ∈ b, 0 < i.weight) :
    (∀ k, k ∈ (explainLens a b).overlap ↔ k ∈ keysOf a ∧ k ∈ keysOf b) ∧
    (∀ k, k ∈ (explainLens a b).uniqueA ↔ k ∈ keysOf a ∧ k ∉ keysOf b) ∧
    (∀ k, k ∈ (explainLens a b).uniqueB ↔ k ∈ keysOf b ∧ k ∉ keysOf a) ∧
    (explainLens a b).topWeights.length ≤ 3 ∧
    (∀ k ∈ (explainLens a b).topWeights, k ∈ unionKeys a b) ∧
    (explainLens a b).topWeights.Pairwise (fun k₁ k₂ =>
      max (collapsedWeight a k₂) (collapsedWeight b k₂) ≤
      max (collapsedWeight a k₁) (collapsedWeight b k₁)) ∧
    ((explainLens a b).overlap.Nodup ∧ (explainLens a b).uniqueA.Nodup ∧
      (explainLens a b).uniqueB.Nodup ∧ (explainLens a b).topWeights.Nodup) ∧
    (∀ k, (k ∈ (explainLens a b).overlap ∨ k ∈ (explainLens a b).uniqueA ∨
        k ∈ (explainLens a b).uniqueB ∨ k ∈ (explainLens a b).topWeights) →
      ∀ c ∈ k.data, ¬('A' ≤ c ∧ c ≤ 'Z')) := by
  have hA := mem_keysOf_iff_pos ha
  have hB := mem_keysOf_iff_pos hb
  refine ⟨?_, ?_, ?_, topWeightKeys_length_le a b, fun k hk => topWeightKeys_subset hk,
    topWeightKeys_sorted a b, ⟨?_, ?_, ?_, topWeightKeys_nodup a b⟩, ?_⟩
  · intro k
    show k ∈ overlapKeys a b ↔ _
    unfold overlapKeys
    rw [List.mem_filter, mem_unionKeys, hA, hB]
    simp only [Bool.and_eq_true, decide_eq_true_eq]
    tauto
  · intro k
    show k ∈ uniqueAKeys a b ↔ _
    unfold uniqueAKeys
    rw [List.mem_filter, mem_unionKeys, hA, hB]
    simp only [Bool.and_eq_true, Bool.not_eq_true', decide_eq_false_iff_not,
      decide_eq_true_eq]
    tauto
  · intro k
    show k ∈ uniqueBKeys a b ↔ _
    unfold uniqueBKeys
    rw [List.mem_filter, mem_unionKeys, hA, hB]
    simp only [Bool.not_eq_true', decide_eq_false_iff_not]
    tauto
  · exact List.Nodup.filter _ (nodup_unionKeys a b)
  · exact List.Nodup.filter _ (nodup_unionKeys a b)
  · exact List.Nodup.filter _ (nodup_unionKeys a b)
  · intro k hk
    have hku : k ∈ unionKeys a b := by
      rcases hk with h | h | h | h
      · exact List.mem_of_mem_filter h
      · exact List.mem_of_mem_filter h
      · exact List.mem_of_mem_filter h
      · exact topWeightKeys_subset h
    exact unionKeys_chars_not_upper hku

/-- C9 counterexample: a weight-0 tag on side A lands in `uniqueToB` even
though B has no tags at all, so `uniqueToB` is not "the keys present only on
the B side" without a positivity restriction. -/
theorem claim_explainLens_counterexample :
    (explainLens [⟨"x", 0⟩] []).uniqueB = ["x"] ∧ keysOf ([] : List TagItem) = [] := by
  exact ⟨by decide, rfl⟩

theorem claim_explainLens_structure_witness :
    ("music" ∈ (explainLens exC4A exC4B).overlap ∧
      "sports" ∈ (explainLens exC4A exC4B).uniqueA ∧
      "travel" ∈ (explainLens exC4A exC4B).uniqueB) ∧
    (explainLens exC4A exC4B).topWeights.length ≤ 3 := by
  obtain ⟨h1, h2, h3, h4, -⟩ :=
    claim_explainLens_structure exC4A exC4B (by decide) (by decide)
  refine ⟨⟨(h1 "music").mpr ⟨?_, ?_⟩, (h2 "sports").mpr ⟨?_, ?_⟩,
    (h3 "travel").mpr ⟨?_, ?_⟩⟩, h4⟩
  all_goals decide

/-! ### The spec-side tokenizer (claim C7) -/

/-- Modelled from the spec words of claim C7: the fixed stopword set. -/
def specStopWords : List String :=
  ["the", "a", "an", "and", "or", "but", "if", "on", "in", "with", "to",
   "for", "of", "by", "is", "are", "am", "be", "was", "were", "this", "that"]

/-- Modelled from the spec words of claim C7: strip a trailing `ing` when
the token's length exceeds 4, else a trailing `ed` when it exceeds 3, else a
trailing `s` when it exceeds 3, at most one rule per token; phrased via the
reversed character list. -/
def stemSpec (t : List Char) : List Char :=
  if t.length > 4 ∧ t.reverse.take 3 = ['g', 'n', 'i'] then (t.reverse.drop 3).reverse
  else if t.length > 3 ∧ t.reverse.take 2 = ['d', 'e'] then (t.reverse.drop 2).reverse
  else if t.length > 3 ∧ t.reverse.take 1 = ['s'] then (t.reverse.drop 1).reverse
  else t

/-- Modelled from the spec words of claim C7: split on whitespace runs,
dropping empty tokens; phrased via `splitOnP`. -/
def splitSpec (l : List Char) : List (List Char) :=
  (List.splitOnP isWS l).filter (fun t => !t.isEmpty)

/-- Modelled from the spec words of claim C7: the full pipeline — lowercase,
replace characters outside `[a-z0-9]` and whitespace by spaces, split on
whitespace runs dropping empties, drop stopwords, stem. -/
def tokenizeSpec (text : String) : List String :=
  (((splitSpec (text.toList.map (fun c => cleanChar (jsToLower c)))).filter
    (fun t => !specStopWords.contains (String.mk t))).map stemSpec).map String.mk

theorem modifyHead_nil_append {α : Type} (l : List (List α)) :
    l.modifyHead (fun t => ([] : List α) ++ t) = l := by
  cases l with
  | nil => rfl
  | cons h t => rw [List.modifyHead_cons, List.nil_append]

theorem splitTokens_eq_aux (cs : List Char) (acc : List Char) :
    splitTokens cs acc =
      ((List.splitOnP isWS cs).modifyHead (fun t => acc.reverse ++ t)).filter
        (fun t => !t.isEmpty) := by
  induction cs generalizing acc with
  | nil =>
    rw [List.splitOnP_nil]
    show (if acc.isEmpty then [] else [acc.reverse]) = _
    simp only [List.modifyHead_cons, List.append_nil, List.filter_cons, List.filter_nil]
    by_cases h : acc = []
    · subst h
      simp
    · simp [List.isEmpty_iff, h, List.reverse_eq_nil_iff]
  | cons c cs ih =>
    rw [List.splitOnP_cons]
    show (if isWS c then
        if acc.isEmpty then splitTokens cs [] else acc.reverse :: splitTokens cs []
      else splitTokens cs (c :: acc)) = _
    by_cases hw : isWS c = true
    · rw [if_pos hw, if_pos hw, ih []]
      simp only [List.reverse_nil, modifyHead_nil_append, List.modifyHead_cons,
        List.append_nil, List.filter_cons]
      by_cases h : acc = []
      · subst h
        simp
      · simp [List.isEmpty_iff, h, List.reverse_eq_nil_iff]
    · rw [if_neg hw, if_neg hw, ih (c :: acc), List.modifyHead_modifyHead]
      have hfun : (fun t => (c :: acc).reverse ++ t) =
          ((fun t => acc.reverse ++ t) ∘ List.cons c) := by
        funext t
        show (c :: acc).reverse ++ t = acc.reverse ++ (c :: t)
        rw [List.reverse_cons, List.append_assoc, List.singleton_append]
      rw [hfun]

theorem splitTokens_eq_splitSpec (cs : List Char) :
    splitTokens cs [] = splitSpec cs := by
  rw [splitTokens_eq_aux]
  unfold splitSpec
  congr 1
  rw [List.reverse_nil]
  exact modifyHead_nil_append _

theorem suffix_take_iff (s t : List Char) :
    List.isSuffixOf s t = true ↔ t.reverse.take s.length = s.reverse := by
  rw [List.isSuffixOf_iff_suffix, ← List.reverse_prefix, List.prefix_iff_eq_take,
    List.length_reverse, eq_comm]

theorem simpleStem_eq_stemSpec (t : List Char) : simpleStem t = stemSpec t := by
  have hing : List.isSuffixOf ['i', 'n', 'g'] t = true ↔
      t.reverse.take 3 = ['g', 'n', 'i'] := suffix_take_iff _ t
  have hed : List.isSuffixOf ['e', 'd'] t = true ↔
      t.reverse.take 2 = ['d', 'e'] := suffix_take_iff _ t
  have hsuf : List.isSuffixOf ['s'] t = true ↔
      t.reverse.take 1 = ['s'] := suffix_take_iff _ t
  unfold simpleStem stemSpec
  by_cases h1 : t.length > 4 ∧ t.reverse.take 3 = ['g', 'n', 'i']
  · rw [if_pos (by rw [Bool.and_eq_true, decide_eq_true_eq, hing]; tauto), if_pos h1,
      List.drop_reverse, List.reverse_reverse]
  · rw [if_neg (by rw [Bool.and_eq_true, decide_eq_true_eq, hing]; tauto), if_neg h1]
    by_cases h2 : t.length > 3 ∧ t.reverse.take 2 = ['d', 'e']
    · rw [if_pos (by rw [Bool.and_eq_true, decide_eq_true_eq, hed]; tauto), if_pos h2,
        List.drop_reverse, List.reverse_reverse]
    · rw [if_neg (by rw [Bool.and_eq_true, decide_eq_true_eq, hed]; tauto), if_neg h2]
      by_cases h3 : t.length > 3 ∧ t.reverse.take 1 = ['s']
      · rw [if_pos (by rw [Bool.and_eq_true, decide_eq_true_eq, hsuf]; tauto), if_pos h3,
          List.drop_reverse, List.reverse_reverse]
      · rw [if_neg (by rw [Bool.and_eq_true, decide_eq_true_eq, hsuf]; tauto), if_neg h3]

/-- C7: `tokenize` returns exactly the tokens of the spec pipeline —
lowercase; replace characters outside `[a-z0-9]` and whitespace by spaces;
split on whitespace runs dropping empty tokens; drop the fixed stopwords;
stem each token by at most one of the `ing`/`ed`/`s` rules with the stated
length thresholds — in input order. -/
theorem claim_tokenize_spec (text : String) : tokenize text = tokenizeSpec text := by
  unfold tokenize tokenizeSpec cleanedChars
  have hclean : (text.toList.map jsToLower).map cleanChar =
      text.toList.map (fun c => cleanChar (jsToLower c)) := by
    rw [List.map_map]
    rfl
  rw [hclean, splitTokens_eq_splitSpec,
    show specStopWords = STOP_WORDS from rfl,
    show stemSpec = simpleStem from (funext simpleStem_eq_stemSpec).symm]

end IdentityMap
